import Mathlib

/-!
Verification of the SilentFeed duplicate-function remover.

Shallow embedding of `scripts/remove-duplicate-functions.py` (boundary
locator and batch remover) and of the input-file check of
`scripts/migrate_logger.py`, together with theorems settling the
specification claims about them.

Documents are ordered lists of lines; a line is its list of characters.
-/

namespace SilentFeed

abbrev Line := List Char
abbrev Doc := List Line
abbrev FName := List Char

/-- The whitespace characters recognised by the scanner
(`\s` of the regex and `str.strip`), for the ASCII documents the tool
targets. -/
def isSpaceChar (c : Char) : Bool :=
  c = ' ' || c = '\t' || c = '\n' || c = '\r' || c = '\x0c' || c = '\x0b'

/-- Python `str.strip()`: remove leading and trailing whitespace. -/
def pystrip (l : Line) : Line :=
  ((l.dropWhile isSpaceChar).reverse.dropWhile isSpaceChar).reverse

/-- Strip an expected character sequence from the front of a line,
returning the remainder when the line starts with it. -/
def stripPrefixL : List Char → List Char → Option (List Char)
  | [], rest => some rest
  | _ :: _, [] => none
  | p :: ps, c :: cs => if p = c then stripPrefixL ps cs else none

/-- The fixed keyword part of the declaration regex
`^export async function {name}\s*\(`. -/
def declKeyword : List Char := "export async function ".toList

/-- Matching of `re.match(rf'^export async function {func_name}\s*\(', line)`:
the line starts with the keyword sequence, the name, optional
whitespace, then an opening parenthesis. -/
def matchesDecl (name : FName) (line : Line) : Bool :=
  match stripPrefixL (declKeyword ++ name) line with
  | none => false
  | some rest =>
    match rest.dropWhile isSpaceChar with
    | c :: _ => c = '('
    | [] => false

/-- Index (counting from `k`) of the first line matching the declaration
pattern: the `for i, line in enumerate(lines)` search with `break`. -/
def findDeclIdx (name : FName) : Nat → Doc → Option Nat
  | _, [] => none
  | k, l :: ls => if matchesDecl name l then some k else findDeclIdx name (k + 1) ls

/-- One backward step of the JSDoc walk examines `lines[j]`:
take `j` when the stripped line starts with `/**`; stop (keeping the
declaration line `dflt`) when it is non-blank and does not start with
`*`; otherwise continue downward (blank lines do not stop the walk). -/
def docWalk (lines : Doc) (dflt : Nat) : Nat → Nat
  | 0 =>
    let s := pystrip (lines.getD 0 [])
    if ("/**".toList).isPrefixOf s then 0 else dflt
  | j + 1 =>
    let s := pystrip (lines.getD (j + 1) [])
    if ("/**".toList).isPrefixOf s then j + 1
    else if !s.isEmpty && !("*".toList.isPrefixOf s) then dflt
    else docWalk lines dflt j

/-- Value of `start_idx` after the backward JSDoc search from declaration line `i`
(the Python `for j in range(i - 1, -1, -1)` loop). -/
def docStartFrom (lines : Doc) (i : Nat) : Nat :=
  match i with
  | 0 => 0
  | j + 1 => docWalk lines (j + 1) j

/-- Per-line brace delta `line.count('\x7b') - line.count('\x7d')`. -/
def braceDelta (l : Line) : Int :=
  (l.count '\x7b' : Int) - (l.count '\x7d' : Int)

/-- Forward brace scan from the declaration line: accumulate each line's
brace delta and return the first index at which the running count is
zero, provided the declaration line contained `'\x7b'` (`hasOpen`). -/
def findEndFrom (hasOpen : Bool) : Int → Nat → List Line → Option Nat
  | _, _, [] => none
  | acc, k, l :: ls =>
    let acc' := acc + braceDelta l
    if hasOpen && acc' == 0 then some k else findEndFrom hasOpen acc' (k + 1) ls

/-- Python `find_function_boundaries(lines, func_name)`: locate the first line
matching the declaration pattern, extend the start backward over an
attached JSDoc block, and scan forward for the line closing the brace
balance.  Returns `(start_idx, end_idx)`, each possibly `None`. -/
def find_function_boundaries (lines : Doc) (name : FName) : Option Nat × Option Nat :=
  match findDeclIdx name 0 lines with
  | none => (none, none)
  | some i =>
    let start_idx := docStartFrom lines i
    let end_idx := findEndFrom ((lines.getD i []).contains '\x7b') 0 i (lines.drop i)
    (some start_idx, end_idx)

/-- A located declaration span: inclusive start and end line and the
requested name, in the coordinates of one document snapshot. -/
structure Boundary where
  startL : Nat
  endL : Nat
  name : FName
deriving DecidableEq, Repr

/-- The boundary used by `main`: present exactly when both the start and
the end index were found. -/
def locate (lines : Doc) (name : FName) : Option Boundary :=
  match find_function_boundaries lines name with
  | (some s, some e) => some ⟨s, e, name⟩
  | _ => none

/-- Python `del lines[s:e + 1]`. -/
def delSlice (lines : Doc) (s e : Nat) : Doc :=
  lines.take s ++ lines.drop (max (e + 1) s)

/-- Sort key: the Python tuple `(start, end, func_name)` under its
lexicographic order. -/
def bkey (b : Boundary) : Nat ×ₗ (Nat ×ₗ FName) :=
  toLex (b.startL, toLex (b.endL, b.name))

/-- The descending comparison used by `ranges_to_remove.sort(reverse=True)`. -/
def rGE (a b : Boundary) : Prop := bkey b ≤ bkey a

instance : DecidableRel rGE := fun a b => inferInstanceAs (Decidable (bkey b ≤ bkey a))

instance : IsTotal Boundary rGE :=
  ⟨fun a b => (le_total (bkey b) (bkey a)).imp id id⟩

instance : IsTrans Boundary rGE :=
  ⟨fun _ _ _ hab hbc => le_trans hbc hab⟩

instance : IsAntisymm Boundary rGE := by
  refine ⟨fun a b h1 h2 => ?_⟩
  have h : bkey a = bkey b := le_antisymm h2 h1
  cases a with
  | mk sa ea na =>
    cases b with
    | mk sb eb nb =>
      simp only [bkey] at h
      have h' : ((sa, toLex (ea, na)) : Nat × (Nat ×ₗ FName)) = (sb, toLex (eb, nb)) :=
        toLex.injective h
      have h1' : sa = sb := congrArg Prod.fst h'
      have h2' : toLex ((ea, na) : Nat × FName) = toLex (eb, nb) := congrArg Prod.snd h'
      have h3' : ((ea, na) : Nat × FName) = (eb, nb) := toLex.injective h2'
      have h4' : ea = eb := congrArg Prod.fst h3'
      have h5' : na = nb := congrArg Prod.snd h3'
      simp [h1', h4', h5']

/-- Python `ranges_to_remove.sort(reverse=True)`: descending by `(start, end, name)`. -/
def sortRanges (rs : List Boundary) : List Boundary :=
  List.insertionSort rGE rs

/-- Apply the deletions one by one, each `del lines[start:end + 1]`. -/
def removeRanges (lines : Doc) (rs : List Boundary) : Doc :=
  rs.foldl (fun ls b => delSlice ls b.startL b.endL) lines

/-- Outcome of one batch run: the edited document, the boundaries found
(in request order), and the names reported not found (in request order). -/
structure RunResult where
  newLines : Doc
  found : List Boundary
  notFound : List FName
deriving DecidableEq, Repr

/-- The per-name location loop of `main`: collect each found boundary,
report the others as not found, never aborting. -/
def collectRanges (lines : Doc) : List FName → List Boundary × List FName
  | [] => ([], [])
  | n :: ns =>
    let rest := collectRanges lines ns
    match locate lines n with
    | some b => (b :: rest.1, rest.2)
    | none => (rest.1, n :: rest.2)

/-- The core of `main` after the file is read: locate every requested
name against the unmodified document, sort the found ranges in
descending order, and delete each in turn. -/
def runBatch (lines : Doc) (names : List FName) : RunResult :=
  let c := collectRanges lines names
  ⟨removeRanges lines (sortRanges c.1), c.1, c.2⟩

/-- Outcome of a whole program run at the file-system boundary: the
process exit status, the content written back (if any), and whether the
missing-file condition was reported. -/
structure ExecResult (α : Type) where
  exitCode : Nat
  written : Option α
  reportedMissing : Bool
deriving DecidableEq, Repr

/-- Model of `main` of `remove-duplicate-functions.py` over an optional input
file: a missing file is reported and `main` plainly returns (the
interpreter then exits with status `0`); otherwise the batch runs and
the edited document is written back. -/
def removeDupMain (file : Option Doc) (names : List FName) : ExecResult Doc :=
  match file with
  | none => ⟨0, none, true⟩
  | some lines => ⟨0, some (runBatch lines names).newLines, false⟩

/-- Model of `main` of `migrate_logger.py` over an optional input file,
abstracting the content migration itself as `migrate`: a missing file is
reported and the process exits with status `1`; otherwise the migrated
content is written back. -/
def migrate_logger_main {α : Type} (migrate : α → α) (file : Option α) : ExecResult α :=
  match file with
  | none => ⟨1, none, true⟩
  | some content => ⟨0, some (migrate content), false⟩

/-- Running brace balance over the lines from the declaration line
onward: the sum of the brace deltas of `ls[0]` through `ls[t]`. -/
def cumBal (ls : List Line) (t : Nat) : Int :=
  ((ls.take (t + 1)).map braceDelta).sum

/-- Scan described by the specification: the end line is the first line
at which the running balance returns to zero after having gone positive
at least once.  Stated from the spec's words for comparison with the
source's `findEndFrom`. -/
def specEndScan : Bool → Int → Nat → List Line → Option Nat
  | _, _, _, [] => none
  | seenPos, acc, k, l :: ls =>
    let acc' := acc + braceDelta l
    if seenPos && acc' == 0 then some k
    else specEndScan (seenPos || decide (0 < acc')) acc' (k + 1) ls

/-- End line according to the specification's algorithm, scanning
forward from line `i`. -/
def specEnd (lines : Doc) (i : Nat) : Option Nat :=
  specEndScan false 0 i (lines.drop i)

/-- Whether line index `i` lies in the inclusive range of boundary `b`. -/
def coveredBy (b : Boundary) (i : Nat) : Bool :=
  decide (b.startL ≤ i ∧ i ≤ b.endL)

/-- Whether line index `i` lies in the union of the boundary ranges. -/
def covered (rs : List Boundary) (i : Nat) : Bool :=
  rs.any fun b => coveredBy b i

/-- Keep, from a document whose first line has absolute index `off`,
exactly the lines whose index is outside every boundary range, in
order. -/
def keepFrom (rs : List Boundary) : Nat → Doc → Doc
  | _, [] => []
  | off, l :: ls =>
    if covered rs off then keepFrom rs (off + 1) ls else l :: keepFrom rs (off + 1) ls

/-- The lines of the document outside the union of the boundary ranges,
verbatim and in original relative order. -/
def keepOutside (rs : List Boundary) (lines : Doc) : Doc :=
  keepFrom rs 0 lines

/-- Two boundaries with non-overlapping inclusive ranges. -/
def BDisj (a b : Boundary) : Prop :=
  a.endL < b.startL ∨ b.endL < a.startL

instance : DecidableRel BDisj := fun a b =>
  inferInstanceAs (Decidable (a.endL < b.startL ∨ b.endL < a.startL))

def headIsParen : List Char → Bool
  | c :: _ => c = '('
  | [] => false

def fooN : FName := "foo".toList

def docFifty : Doc := (List.range 50).map fun k => [Char.ofNat (65 + k)]

def planAB : List Boundary := [⟨9, 19, "A".toList⟩, ⟨29, 39, "B".toList⟩]

def docBlankGap : Doc :=
  ["/**".toList, " * doc".toList, " */".toList, [],
   "export async function foo() \x7b".toList, "\x7d".toList]

def docBalancedSig : Doc :=
  ["export async function foo(x = \x7b\x7d)".toList, "\x7b".toList,
   "if (a) \x7b b \x7d".toList, "\x7d".toList]

def docNested : Doc :=
  ["export async function foo() \x7b".toList, "  if (x) \x7b".toList, "  \x7d".toList, "\x7d".toList]

def docNoBrace : Doc := ["export async function foo()".toList, "\x7b".toList, "\x7d".toList]

def docRunaway : Doc := ["export async function foo() \x7b".toList, "body".toList]

def docSmall : Doc :=
  ["a".toList, "export async function foo() \x7b".toList, "\x7d".toList, "z".toList]

def docTwoFns : Doc :=
  ["export async function foo() \x7b".toList, "\x7d".toList, "mid".toList,
   "export async function bar() \x7b".toList, "\x7d".toList]

def docTwice : Doc :=
  ["export async function foo() \x7b".toList, "\x7d".toList,
   "export async function foo() \x7b".toList, "\x7d".toList]

def docOnce : Doc := ["export async function foo() \x7b".toList, "\x7d".toList, "tail".toList]

def declLineFoo : Line := "export async function foo(".toList

def docVariants : Doc :=
  ["function foo() \x7b".toList, "export function foo() \x7b".toList,
   "  export async function foo() \x7b".toList, "export async function foo() \x7b".toList,
   "export async function foo() \x7b again".toList]

theorem stripPrefixL_eq_some {p : List Char} : ∀ {l r : List Char},
    stripPrefixL p l = some r ↔ l = p ++ r := by
  induction p with
  | nil => intro l r; simp [stripPrefixL]
  | cons a ps ih =>
    intro l r
    cases l with
    | nil => simp [stripPrefixL]
    | cons c cs =>
      by_cases h : a = c
      · subst h
        simp [stripPrefixL, ih]
      · constructor
        · intro hs
          simp [stripPrefixL, h] at hs
        · intro hEq
          injection hEq with h1 h2
          exact (h h1.symm).elim

theorem matchesDecl_eq_of_strip {name : FName} {line : Line} {r : List Char}
    (hsp : stripPrefixL (declKeyword ++ name) line = some r) :
    matchesDecl name line = headIsParen (r.dropWhile isSpaceChar) := by
  unfold matchesDecl headIsParen
  rw [hsp]

theorem matchesDecl_eq_false_of_strip {name : FName} {line : Line}
    (hsp : stripPrefixL (declKeyword ++ name) line = none) :
    matchesDecl name line = false := by
  unfold matchesDecl
  rw [hsp]

theorem dropWhile_space_append {ws t : List Char} (hws : ws.all isSpaceChar = true) :
    (ws ++ '(' :: t).dropWhile isSpaceChar = '(' :: t := by
  induction ws with
  | nil => simp [List.dropWhile_cons, (by decide : isSpaceChar '(' = false)]
  | cons a as ih =>
    simp only [List.all_cons, Bool.and_eq_true] at hws
    simp [List.dropWhile_cons, hws.1, ih hws.2]

theorem matchesDecl_iff {name : FName} {line : Line} :
    matchesDecl name line = true ↔
      ∃ ws rest, line = declKeyword ++ name ++ ws ++ '(' :: rest ∧
        ws.all isSpaceChar = true := by
  constructor
  · intro h
    cases hsp : stripPrefixL (declKeyword ++ name) line with
    | none => rw [matchesDecl_eq_false_of_strip hsp] at h; exact absurd h (by simp)
    | some r =>
      rw [matchesDecl_eq_of_strip hsp] at h
      have hline : line = (declKeyword ++ name) ++ r := stripPrefixL_eq_some.mp hsp
      cases hdw : r.dropWhile isSpaceChar with
      | nil => rw [hdw] at h; simp [headIsParen] at h
      | cons c t =>
        rw [hdw] at h
        simp only [headIsParen, decide_eq_true_eq] at h
        subst h
        refine ⟨r.takeWhile isSpaceChar, t, ?_, ?_⟩
        · rw [hline]
          conv_lhs => rw [← List.takeWhile_append_dropWhile isSpaceChar r]
          rw [hdw]
          simp [List.append_assoc]
        · simp only [List.all_eq_true]
          intro c hc
          exact List.mem_takeWhile_imp hc
  · rintro ⟨ws, rest, hline, hws⟩
    have hsp : stripPrefixL (declKeyword ++ name) line = some (ws ++ '(' :: rest) := by
      apply stripPrefixL_eq_some.mpr
      rw [hline]; simp [List.append_assoc]
    rw [matchesDecl_eq_of_strip hsp, dropWhile_space_append hws]
    simp [headIsParen]

theorem findDeclIdx_some {name : FName} : ∀ {ls : Doc} {k i : Nat},
    findDeclIdx name k ls = some i →
    ∃ t, i = k + t ∧ t < ls.length ∧ matchesDecl name (ls.getD t []) = true ∧
      ∀ u, u < t → matchesDecl name (ls.getD u []) = false := by
  intro ls
  induction ls with
  | nil => intro k i h; simp [findDeclIdx] at h
  | cons l ls ih =>
    intro k i h
    by_cases hm : matchesDecl name l = true
    · simp [findDeclIdx, hm] at h
      exact ⟨0, by omega, by simp, by simpa using hm, fun u hu => absurd hu (Nat.not_lt_zero u)⟩
    · simp only [findDeclIdx] at h
      rw [if_neg hm] at h
      obtain ⟨t, ht1, ht2, ht3, ht4⟩ := ih h
      refine ⟨t + 1, by omega, by simp; omega, by simpa using ht3, ?_⟩
      intro u hu
      cases u with
      | zero => simpa using (Bool.not_eq_true _).mp hm
      | succ u' => simpa using ht4 u' (by omega)

theorem findDeclIdx_none {name : FName} : ∀ {ls : Doc} {k : Nat},
    findDeclIdx name k ls = none ↔ ∀ l ∈ ls, matchesDecl name l = false := by
  intro ls
  induction ls with
  | nil => intro k; simp [findDeclIdx]
  | cons l ls ih =>
    intro k
    by_cases hm : matchesDecl name l = true
    · simp [findDeclIdx, hm]
    · rw [findDeclIdx, if_neg hm]
      simp only [List.mem_cons]
      constructor
      · intro h x hx
        rcases hx with rfl | hx
        · exact (Bool.not_eq_true _).mp hm
        · exact (ih.mp h) x hx
      · intro h
        exact ih.mpr fun x hx => h x (Or.inr hx)

theorem cumBal_cons_zero {l : Line} {ls : List Line} :
    cumBal (l :: ls) 0 = braceDelta l := by
  simp [cumBal]

theorem cumBal_cons_succ {l : Line} {ls : List Line} {t : Nat} :
    cumBal (l :: ls) (t + 1) = braceDelta l + cumBal ls t := by
  simp [cumBal, List.take_succ_cons]

theorem findEndFrom_false_eq_none : ∀ {ls : List Line} {acc : Int} {k : Nat},
    findEndFrom false acc k ls = none := by
  intro ls
  induction ls with
  | nil => intro acc k; rfl
  | cons l ls ih => intro acc k; simp [findEndFrom, ih]

theorem findEndFrom_none_iff : ∀ {ls : List Line} {acc : Int} {k : Nat},
    findEndFrom true acc k ls = none ↔ ∀ t, t < ls.length → acc + cumBal ls t ≠ 0 := by
  intro ls
  induction ls with
  | nil => intro acc k; simp [findEndFrom]
  | cons l ls ih =>
    intro acc k
    by_cases hz : acc + braceDelta l = 0
    · constructor
      · intro h
        exfalso
        simp [findEndFrom, hz] at h
      · intro h
        exact absurd (by rw [cumBal_cons_zero]; exact hz) (h 0 (by simp))
    · have hstep : findEndFrom true acc k (l :: ls) = findEndFrom true (acc + braceDelta l) (k + 1) ls := by
        simp only [findEndFrom]
        rw [if_neg (by simp [hz])]
      rw [hstep, ih]
      constructor
      · intro h t ht
        cases t with
        | zero => rw [cumBal_cons_zero]; exact hz
        | succ t' =>
          rw [cumBal_cons_succ, ← add_assoc]
          exact h t' (by simpa using ht)
      · intro h t ht
        have := h (t + 1) (by simpa using ht)
        rwa [cumBal_cons_succ, ← add_assoc] at this

theorem findEndFrom_some_iff : ∀ {ls : List Line} {acc : Int} {k m : Nat},
    findEndFrom true acc k ls = some m ↔
      ∃ t, t < ls.length ∧ m = k + t ∧ acc + cumBal ls t = 0 ∧
        ∀ u, u < t → acc + cumBal ls u ≠ 0 := by
  intro ls
  induction ls with
  | nil => intro acc k m; simp [findEndFrom]
  | cons l ls ih =>
    intro acc k m
    by_cases hz : acc + braceDelta l = 0
    · have hstep : findEndFrom true acc k (l :: ls) = some k := by
        simp [findEndFrom, hz]
      rw [hstep]
      constructor
      · intro h
        injection h with h
        exact ⟨0, by simp, by omega, by rwa [cumBal_cons_zero],
          fun u hu => absurd hu (Nat.not_lt_zero u)⟩
      · rintro ⟨t, ht1, ht2, ht3, ht4⟩
        cases t with
        | zero => simp [ht2]
        | succ t' => exact absurd (by rwa [cumBal_cons_zero]) (ht4 0 (Nat.succ_pos t'))
    · have hstep : findEndFrom true acc k (l :: ls) = findEndFrom true (acc + braceDelta l) (k + 1) ls := by
        simp only [findEndFrom]
        rw [if_neg (by simp [hz])]
      rw [hstep, ih]
      constructor
      · rintro ⟨t, ht1, ht2, ht3, ht4⟩
        refine ⟨t + 1, by simpa using ht1, by omega, by rwa [cumBal_cons_succ, ← add_assoc], ?_⟩
        intro u hu
        cases u with
        | zero => rw [cumBal_cons_zero]; exact hz
        | succ u' =>
          rw [cumBal_cons_succ, ← add_assoc]
          exact ht4 u' (by omega)
      · rintro ⟨t, ht1, ht2, ht3, ht4⟩
        cases t with
        | zero => exact absurd (by rwa [cumBal_cons_zero] at ht3) hz
        | succ t' =>
          refine ⟨t', by simpa using ht1, by omega, ?_, ?_⟩
          · rwa [cumBal_cons_succ, ← add_assoc] at ht3
          · intro u hu
            have := ht4 (u + 1) (by omega)
            rwa [cumBal_cons_succ, ← add_assoc] at this

theorem docWalk_zero (lines : Doc) (dflt : Nat) :
    docWalk lines dflt 0 =
      if ("/**".toList).isPrefixOf (pystrip (lines.getD 0 [])) then 0 else dflt := rfl

theorem docWalk_succ (lines : Doc) (dflt js : Nat) :
    docWalk lines dflt (js + 1) =
      if ("/**".toList).isPrefixOf (pystrip (lines.getD (js + 1) [])) then js + 1
      else if !(pystrip (lines.getD (js + 1) [])).isEmpty &&
          !("*".toList.isPrefixOf (pystrip (lines.getD (js + 1) []))) then dflt
      else docWalk lines dflt js := rfl

theorem docOpen_star (cs : List Char) : ("/**".toList).isPrefixOf ('*' :: cs) = false := by
  rw [show ("/**".toList) = ['/', '*', '*'] from rfl]
  simp [List.isPrefixOf]

theorem star_prefix_cons (c : Char) (cs : List Char) :
    ("*".toList).isPrefixOf (c :: cs) = ('*' == c) := by
  rw [show ("*".toList) = ['*'] from rfl]
  simp [List.isPrefixOf]

theorem docWalk_finds {lines : Doc} {dflt j : Nat}
    (hopen : "/**".toList.isPrefixOf (pystrip (lines.getD j [])) = true) :
    ∀ js, j ≤ js →
    (∀ k, k ≤ js → j < k → (pystrip (lines.getD k []) = [] ∨
        "*".toList.isPrefixOf (pystrip (lines.getD k [])) = true)) →
    docWalk lines dflt js = j := by
  intro js
  induction js with
  | zero =>
    intro hle _
    have hj : j = 0 := Nat.le_zero.mp hle
    subst hj
    rw [docWalk_zero, if_pos hopen]
  | succ js ih =>
    intro hle hcont
    by_cases hj : j = js + 1
    · subst hj
      rw [docWalk_succ, if_pos hopen]
    · have hlt : j ≤ js := by omega
      have hc := hcont (js + 1) le_rfl (by omega)
      have hrec : docWalk lines dflt (js + 1) = docWalk lines dflt js := by
        rcases hc with hblank | hstar
        · rw [docWalk_succ, hblank, if_neg (by decide), if_neg (by decide)]
        · cases hs : pystrip (lines.getD (js + 1) []) with
          | nil => rw [hs] at hstar; exact absurd hstar (by decide)
          | cons c cs =>
            rw [hs] at hstar
            rw [star_prefix_cons] at hstar
            have hcstar : c = '*' := (beq_iff_eq.mp hstar).symm
            subst hcstar
            rw [docWalk_succ, hs, if_neg (by simp [docOpen_star])]
            rw [if_neg (by simp [star_prefix_cons])]
      rw [hrec]
      exact ih hlt fun k hk1 hk2 => hcont k (by omega) hk2

theorem covered_cons (b : Boundary) (rs : List Boundary) (i : Nat) :
    covered (b :: rs) i = (coveredBy b i || covered rs i) := by
  simp [covered, List.any_cons]

theorem keepFrom_nil_ranges : ∀ (off : Nat) (ls : Doc), keepFrom [] off ls = ls := by
  intro off ls
  induction ls generalizing off with
  | nil => rfl
  | cons l ls ih => simp [keepFrom, covered, ih]

theorem keepFrom_append (rs : List Boundary) :
    ∀ (A : Doc) (off : Nat) (B : Doc),
    keepFrom rs off (A ++ B) = keepFrom rs off A ++ keepFrom rs (off + A.length) B := by
  intro A
  induction A with
  | nil => intro off B; simp [keepFrom]
  | cons a as ih =>
    intro off B
    have hcons : (a :: as) ++ B = a :: (as ++ B) := rfl
    rw [hcons]
    simp only [keepFrom]
    rw [ih (off + 1) B]
    have harith : off + 1 + as.length = off + (a :: as).length := by simp; omega
    rw [harith]
    by_cases hc : covered rs off
    · simp [hc]
    · simp [hc]

theorem keepFrom_of_all_below {rs : List Boundary} :
    ∀ {off : Nat} (ls : Doc), (∀ b ∈ rs, b.endL < off) → keepFrom rs off ls = ls := by
  intro off ls
  induction ls generalizing off with
  | nil => intro _; rfl
  | cons l ls ih =>
    intro h
    have hcov : covered rs off = false := by
      simp only [covered, List.any_eq_false]
      intro b hb
      simp only [coveredBy, decide_eq_true_eq]
      have := h b hb
      omega
    simp [keepFrom, hcov]
    exact ih fun b hb => by have := h b hb; omega

theorem keepFrom_cons_above {b : Boundary} {rs : List Boundary} :
    ∀ {off : Nat} (ls : Doc), (∀ i, off ≤ i → i < off + ls.length → coveredBy b i = false) →
    keepFrom (b :: rs) off ls = keepFrom rs off ls := by
  intro off ls
  induction ls generalizing off with
  | nil => intro _; rfl
  | cons l ls ih =>
    intro h
    have hb0 : coveredBy b off = false := h off le_rfl (by simp)
    have hrest : ∀ i, off + 1 ≤ i → i < off + 1 + ls.length → coveredBy b i = false := by
      intro i h1 h2
      exact h i (by omega) (by simp; omega)
    simp only [keepFrom, covered_cons, hb0, Bool.false_or]
    by_cases hc : covered rs off
    · simp [hc, ih hrest]
    · simp [hc, ih hrest]

theorem keepFrom_all_covered {rs : List Boundary} :
    ∀ {off : Nat} (ls : Doc), (∀ i, off ≤ i → i < off + ls.length → covered rs i = true) →
    keepFrom rs off ls = [] := by
  intro off ls
  induction ls generalizing off with
  | nil => intro _; rfl
  | cons l ls ih =>
    intro h
    have h0 : covered rs off = true := h off le_rfl (by simp)
    simp [keepFrom, h0]
    exact ih fun i h1 h2 => h i (by omega) (by simp; omega)

theorem keepFrom_congr {rs1 rs2 : List Boundary} (h : ∀ i, covered rs1 i = covered rs2 i) :
    ∀ (off : Nat) (ls : Doc), keepFrom rs1 off ls = keepFrom rs2 off ls := by
  intro off ls
  induction ls generalizing off with
  | nil => rfl
  | cons l ls ih =>
    simp only [keepFrom, h off]
    by_cases hc : covered rs2 off
    · simp [hc, ih]
    · simp [hc, ih]

theorem covered_perm {rs1 rs2 : List Boundary} (h : rs1.Perm rs2) (i : Nat) :
    covered rs1 i = covered rs2 i := by
  simp only [covered]
  cases hb : rs2.any (fun b => coveredBy b i) with
  | true =>
    simp only [List.any_eq_true] at hb ⊢
    obtain ⟨b, hbm, hbc⟩ := hb
    exact ⟨b, h.mem_iff.mpr hbm, hbc⟩
  | false =>
    simp only [List.any_eq_false] at hb ⊢
    intro b hbm
    exact hb b (h.mem_iff.mp hbm)

theorem delSlice_eq {lines : Doc} {s e : Nat} (hse : s ≤ e) :
    delSlice lines s e = lines.take s ++ lines.drop (e + 1) := by
  unfold delSlice
  rw [Nat.max_eq_left (by omega)]

theorem bkey_le_start {a x : Boundary} (h : rGE a x) : x.startL ≤ a.startL := by
  have h' := (Prod.Lex.le_iff _ _).mp h
  rcases h' with h' | ⟨h', _⟩
  · exact Nat.le_of_lt h'
  · exact Nat.le_of_eq h'

theorem removeRanges_sorted_eq_keep : ∀ (rs : List Boundary) (lines : Doc),
    List.Sorted rGE rs → List.Pairwise BDisj rs →
    (∀ b ∈ rs, b.startL ≤ b.endL ∧ b.endL < lines.length) →
    removeRanges lines rs = keepFrom rs 0 lines := by
  intro rs
  induction rs with
  | nil =>
    intro lines _ _ _
    simp [removeRanges, keepFrom_nil_ranges]
  | cons b rs ih =>
    intro lines hsort hdisj hb
    obtain ⟨hse, hlen⟩ := hb b (List.mem_cons_self b rs)
    have hge : ∀ x ∈ rs, rGE b x := (List.sorted_cons.mp hsort).1
    have hsorted_rest : List.Sorted rGE rs := (List.sorted_cons.mp hsort).2
    have hdisj_head : ∀ x ∈ rs, BDisj b x := (List.pairwise_cons.mp hdisj).1
    have hdisj_rest : List.Pairwise BDisj rs := (List.pairwise_cons.mp hdisj).2
    have hbelow : ∀ x ∈ rs, x.endL < b.startL := by
      intro x hx
      have h1 : x.startL ≤ b.startL := bkey_le_start (hge x hx)
      rcases hdisj_head x hx with h | h
      · omega
      · exact h
    have hTlen : (lines.take b.startL).length = b.startL := by
      simp [List.length_take]
      omega
    have hMlen : ((lines.drop b.startL).take (b.endL + 1 - b.startL)).length
        = b.endL + 1 - b.startL := by
      simp [List.length_take, List.length_drop]
      omega
    have hdrop2 : (lines.drop b.startL).drop (b.endL + 1 - b.startL) = lines.drop (b.endL + 1) := by
      rw [List.drop_drop]
      congr 1
      omega
    have hMD : (lines.drop b.startL).take (b.endL + 1 - b.startL) ++ lines.drop (b.endL + 1)
        = lines.drop b.startL := by
      rw [← hdrop2]
      exact List.take_append_drop _ _
    have hdecomp : lines = lines.take b.startL ++
        ((lines.drop b.startL).take (b.endL + 1 - b.startL) ++ lines.drop (b.endL + 1)) := by
      rw [hMD]
      exact (List.take_append_drop _ _).symm
    have hdel : delSlice lines b.startL b.endL =
        lines.take b.startL ++ lines.drop (b.endL + 1) := delSlice_eq hse
    have hstep : removeRanges lines (b :: rs) =
        removeRanges (lines.take b.startL ++ lines.drop (b.endL + 1)) rs := by
      simp only [removeRanges, List.foldl_cons]
      rw [hdel]
    have hIH : removeRanges (lines.take b.startL ++ lines.drop (b.endL + 1)) rs
        = keepFrom rs 0 (lines.take b.startL ++ lines.drop (b.endL + 1)) := by
      apply ih _ hsorted_rest hdisj_rest
      intro x hx
      refine ⟨(hb x (List.mem_cons_of_mem _ hx)).1, ?_⟩
      have hx2 := hbelow x hx
      simp only [List.length_append, hTlen]
      omega
    have hD : keepFrom rs b.startL (lines.drop (b.endL + 1)) = lines.drop (b.endL + 1) :=
      keepFrom_of_all_below _ hbelow
    have hT0 : keepFrom (b :: rs) 0 (lines.take b.startL)
        = keepFrom rs 0 (lines.take b.startL) := by
      apply keepFrom_cons_above
      intro i _ hi2
      rw [hTlen] at hi2
      simp only [coveredBy, decide_eq_false_iff_not]
      omega
    have hM0 : keepFrom (b :: rs) b.startL
        ((lines.drop b.startL).take (b.endL + 1 - b.startL)) = [] := by
      apply keepFrom_all_covered
      intro i hi1 hi2
      rw [hMlen] at hi2
      rw [covered_cons]
      have : coveredBy b i = true := by
        simp only [coveredBy, decide_eq_true_eq]
        omega
      simp [this]
    have hD0 : keepFrom (b :: rs) (b.endL + 1) (lines.drop (b.endL + 1))
        = lines.drop (b.endL + 1) := by
      apply keepFrom_of_all_below
      intro x hx
      rcases List.mem_cons.mp hx with rfl | hx'
      · omega
      · have := hbelow x hx'
        omega
    have hRHS : keepFrom (b :: rs) 0 lines
        = keepFrom rs 0 (lines.take b.startL) ++ lines.drop (b.endL + 1) := by
      conv_lhs => rw [hdecomp]
      rw [keepFrom_append, keepFrom_append, hTlen, Nat.zero_add, hMlen]
      rw [show b.startL + (b.endL + 1 - b.startL) = b.endL + 1 from by omega]
      rw [hT0, hM0, hD0]
      simp
    calc removeRanges lines (b :: rs)
        = removeRanges (lines.take b.startL ++ lines.drop (b.endL + 1)) rs := hstep
      _ = keepFrom rs 0 (lines.take b.startL ++ lines.drop (b.endL + 1)) := hIH
      _ = keepFrom rs 0 (lines.take b.startL) ++
            keepFrom rs (0 + (lines.take b.startL).length) (lines.drop (b.endL + 1)) :=
          keepFrom_append rs _ 0 _
      _ = keepFrom rs 0 (lines.take b.startL) ++ lines.drop (b.endL + 1) := by
          rw [hTlen, Nat.zero_add, hD]
      _ = keepFrom (b :: rs) 0 lines := hRHS.symm

theorem keepFrom_eq_filterMap (rs : List Boundary) :
    ∀ (off : Nat) (ls : Doc), keepFrom rs off ls =
      (List.range ls.length).filterMap
        (fun t => if covered rs (off + t) then none else some (ls.getD t [])) := by
  intro off ls
  induction ls generalizing off with
  | nil => simp [keepFrom]
  | cons l ls ih =>
    have hfun : ((fun t => if covered rs (off + t) then none
          else some ((l :: ls).getD t [])) ∘ Nat.succ)
        = (fun t => if covered rs (off + 1 + t) then none else some (ls.getD t [])) := by
      funext t
      simp only [Function.comp]
      rw [show off + Nat.succ t = off + 1 + t from by omega]
      simp [List.getD_cons_succ]
    rw [List.length_cons, List.range_succ_eq_map]
    rw [List.filterMap_cons, List.filterMap_map]
    rw [hfun, ← ih (off + 1)]
    simp only [keepFrom]
    by_cases hc : covered rs off
    · simp [hc]
    · simp [hc]

theorem perm_filterMap {α β : Type} (f : α → Option β) {l₁ l₂ : List α}
    (h : l₁.Perm l₂) : (l₁.filterMap f).Perm (l₂.filterMap f) := by
  induction h with
  | nil => simp
  | cons x _ ih =>
    simp only [List.filterMap_cons]
    cases f x with
    | none => exact ih
    | some b => exact ih.cons b
  | swap x y l =>
    simp only [List.filterMap_cons]
    cases f x with
    | none =>
      cases f y with
      | none => exact List.Perm.refl _
      | some b => exact List.Perm.refl _
    | some a =>
      cases f y with
      | none => exact List.Perm.refl _
      | some b => exact List.Perm.swap a b _
  | trans _ _ ih1 ih2 => exact ih1.trans ih2

theorem collectRanges_fst (lines : Doc) :
    ∀ (names : List FName), (collectRanges lines names).1 = names.filterMap (locate lines) := by
  intro names
  induction names with
  | nil => rfl
  | cons n ns ih =>
    simp only [collectRanges, List.filterMap_cons]
    cases h : locate lines n with
    | none => simpa [h] using ih
    | some b => simpa [h] using ih

theorem collectRanges_snd (lines : Doc) :
    ∀ (names : List FName),
      (collectRanges lines names).2 = names.filter (fun n => (locate lines n).isNone) := by
  intro names
  induction names with
  | nil => rfl
  | cons n ns ih =>
    simp only [collectRanges, List.filter_cons]
    cases h : locate lines n with
    | none => simpa [h] using ih
    | some b => simpa [h] using ih

theorem sortRanges_eq_of_perm {rs1 rs2 : List Boundary} (h : rs1.Perm rs2) :
    sortRanges rs1 = sortRanges rs2 := by
  exact List.eq_of_perm_of_sorted
    (((List.perm_insertionSort rGE rs1).trans h).trans (List.perm_insertionSort rGE rs2).symm)
    (List.sorted_insertionSort rGE rs1)
    (List.sorted_insertionSort rGE rs2)

theorem locate_eq_none_of_no_decl {lines : Doc} {name : FName}
    (h : findDeclIdx name 0 lines = none) : locate lines name = none := by
  unfold locate find_function_boundaries
  rw [h]

theorem runBatch_no_match {lines : Doc} {names : List FName}
    (h : ∀ n ∈ names, findDeclIdx n 0 lines = none) :
    runBatch lines names = ⟨lines, [], names⟩ := by
  have hcol : collectRanges lines names = ([], names) := by
    induction names with
    | nil => rfl
    | cons n ns ih =>
      have hn : locate lines n = none :=
        locate_eq_none_of_no_decl (h n (List.mem_cons_self n ns))
      have hns := ih fun m hm => h m (List.mem_cons_of_mem n hm)
      simp [collectRanges, hn, hns]
  simp [runBatch, hcol, sortRanges, removeRanges, List.insertionSort]

theorem collectRanges_fst_erase {lines : Doc} {name : FName}
    (hnone : locate lines name = none) :
    ∀ (names : List FName),
      (collectRanges lines (names.erase name)).1 = (collectRanges lines names).1 := by
  intro names
  induction names with
  | nil => rfl
  | cons n ns ih =>
    by_cases hn : n = name
    · subst hn
      rw [List.erase_cons_head]
      simp [collectRanges, hnone]
    · rw [List.erase_cons_tail (by simpa using hn)]
      cases h : locate lines n with
      | none => simp [collectRanges, h, ih]
      | some b => simp [collectRanges, h, ih]

theorem mem_notFound_of_locate_none {lines : Doc} {name : FName}
    (hnone : locate lines name = none) :
    ∀ {names : List FName}, name ∈ names → name ∈ (collectRanges lines names).2 := by
  intro names
  induction names with
  | nil => intro h; exact absurd h (List.not_mem_nil name)
  | cons n ns ih =>
    intro hmem
    rcases List.mem_cons.mp hmem with rfl | hmem'
    · simp [collectRanges, hnone]
    · cases h : locate lines n with
      | none => simp [collectRanges, h, ih hmem']
      | some b => simp [collectRanges, h, ih hmem']

theorem find_fst_eq {lines : Doc} {name : FName} {i : Nat}
    (hfind : findDeclIdx name 0 lines = some i) :
    (find_function_boundaries lines name).1 = some (docStartFrom lines i) := by
  unfold find_function_boundaries
  rw [hfind]

theorem find_snd_eq {lines : Doc} {name : FName} {i : Nat}
    (hfind : findDeclIdx name 0 lines = some i) :
    (find_function_boundaries lines name).2 =
      findEndFrom ((lines.getD i []).contains '\x7b') 0 i (lines.drop i) := by
  unfold find_function_boundaries
  rw [hfind]

theorem locate_eq_none_of_snd_none {lines : Doc} {name : FName}
    (h : (find_function_boundaries lines name).2 = none) : locate lines name = none := by
  unfold locate
  cases hf : find_function_boundaries lines name with
  | mk fst snd =>
    rw [hf] at h
    simp only at h
    subst h
    cases fst <;> rfl

theorem findEndFrom_eq_specScan_true : ∀ (ls : List Line) (acc : Int) (k : Nat),
    findEndFrom true acc k ls = specEndScan true acc k ls := by
  intro ls
  induction ls with
  | nil => intro acc k; rfl
  | cons l ls ih =>
    intro acc k
    simp only [findEndFrom, specEndScan, Bool.true_and, Bool.true_or]
    by_cases h : (acc + braceDelta l == 0) = true
    · simp [h]
    · simp [h, ih]

theorem runBatch_singleton_none {lines : Doc} {name : FName}
    (hnone : locate lines name = none) :
    runBatch lines [name] = ⟨lines, [], [name]⟩ := by
  have hcol : collectRanges lines [name] = ([], [name]) := by
    simp [collectRanges, hnone]
  simp [runBatch, hcol, sortRanges, removeRanges, List.insertionSort]

/-- C1: applying the batch remover (sorting the boundary set in
descending order and then deleting each inclusive range) to any document
and any set of pairwise non-overlapping in-bounds boundaries yields
exactly the lines outside the union of the ranges, verbatim and in
original relative order. -/
theorem C1_batch_removal_keeps_exactly_outside (lines : Doc) (rs : List Boundary)
    (hdisj : List.Pairwise BDisj rs)
    (hb : ∀ b ∈ rs, b.startL ≤ b.endL ∧ b.endL < lines.length) :
    removeRanges lines (sortRanges rs) = keepOutside rs lines ∧
    keepOutside rs lines = (List.range lines.length).filterMap
      (fun t => if covered rs t then none else some (lines.getD t [])) := by
  constructor
  · have hperm : (sortRanges rs).Perm rs := List.perm_insertionSort rGE rs
    have hsorted : List.Sorted rGE (sortRanges rs) := List.sorted_insertionSort rGE rs
    have hdisj' : List.Pairwise BDisj (sortRanges rs) :=
      (hperm.pairwise_iff fun hab => Or.symm hab).mpr hdisj
    have hb' : ∀ b ∈ sortRanges rs, b.startL ≤ b.endL ∧ b.endL < lines.length :=
      fun b hbm => hb b (hperm.subset hbm)
    rw [removeRanges_sorted_eq_keep _ _ hsorted hdisj' hb']
    exact keepFrom_congr (covered_perm hperm) 0 lines
  · rw [keepOutside, keepFrom_eq_filterMap]
    simp

/-- C1 witness: removing the two 11-line boundaries of lines 10 to 20
and 30 to 40 (1-based) from a 50-line document keeps exactly the other
28 lines. -/
theorem C1_batch_removal_keeps_exactly_outside_witness :
    (List.Pairwise BDisj planAB ∧
      ∀ b ∈ planAB, b.startL ≤ b.endL ∧ b.endL < docFifty.length) ∧
    removeRanges docFifty (sortRanges planAB) = keepOutside planAB docFifty ∧
    (removeRanges docFifty (sortRanges planAB)).length = 28 :=
  ⟨⟨by decide, by decide⟩,
    (C1_batch_removal_keeps_exactly_outside docFifty planAB (by decide) (by decide)).1,
    by decide⟩

/-- C2 counterexample: in `docBlankGap` the declaration on line 4 is
separated from the documentation block by the blank line 3, yet the
computed start is line 0 (the opening of the documentation block),
not line 4 as the claim states. -/
theorem C2_blank_gap_counterexample :
    matchesDecl fooN (docBlankGap.getD 4 []) = true ∧
    pystrip (docBlankGap.getD 3 []) = [] ∧
    (find_function_boundaries docBlankGap fooN).1 = some 0 ∧
    (find_function_boundaries docBlankGap fooN).1 ≠ some 4 :=
  ⟨by decide, by decide, by decide, by decide⟩

/-- C2 (amended): the boundary starts at the documentation block's
opening line whenever every line strictly between that opening and the
declaration line is blank or is a comment-continuation line starting
with a star; blank lines do not stop the backward walk, so this holds
with or without a blank line in between. -/
theorem C2_doc_block_attachment (lines : Doc) (name : FName) (i j : Nat)
    (hfind : findDeclIdx name 0 lines = some i)
    (hji : j < i)
    (hopen : "/**".toList.isPrefixOf (pystrip (lines.getD j [])) = true)
    (hcont : ∀ k, k < i → j < k → (pystrip (lines.getD k []) = [] ∨
        "*".toList.isPrefixOf (pystrip (lines.getD k [])) = true)) :
    (find_function_boundaries lines name).1 = some j := by
  rw [find_fst_eq hfind]
  cases i with
  | zero => exact absurd hji (Nat.not_lt_zero j)
  | succ i' =>
    have : docStartFrom lines (i' + 1) = docWalk lines (i' + 1) i' := rfl
    rw [this]
    rw [docWalk_finds hopen i' (by omega) fun k hk1 hk2 => hcont k (by omega) hk2]

/-- C2 witness: in `docBlankGap` every line between the opener at 0 and
the declaration at 4 is blank or a star continuation, so the start is
line 0. -/
theorem C2_doc_block_attachment_witness :
    (find_function_boundaries docBlankGap fooN).1 = some 0 :=
  C2_doc_block_attachment docBlankGap fooN 4 0 (by decide) (by decide) (by decide) (by decide)

/-- C3 counterexample: in `docBalancedSig` the declaration line's braces
are balanced, so the scan stops at the declaration line itself (end 0),
while the first line at which the running balance returns to zero after
having gone positive is line 3. -/
theorem C3_balanced_signature_counterexample :
    (find_function_boundaries docBalancedSig fooN).2 = some 0 ∧
    specEnd docBalancedSig 0 = some 3 ∧
    (find_function_boundaries docBalancedSig fooN).2 ≠ specEnd docBalancedSig 0 :=
  ⟨by decide, by decide, by decide⟩

/-- C3 (amended): whenever the declaration line's own brace balance is
positive, the end line equals the first line at which the running
balance returns to zero after having gone positive, so an inner nested
pair never closes the boundary; without that proviso the balance can be
zero already at the declaration line. -/
theorem C3_outermost_balance_end (lines : Doc) (name : FName) (i : Nat)
    (hfind : findDeclIdx name 0 lines = some i)
    (hpos : 0 < braceDelta (lines.getD i [])) :
    (find_function_boundaries lines name).2 = specEnd lines i := by
  obtain ⟨t, ht1, ht2, _, _⟩ := findDeclIdx_some hfind
  have hlen : i < lines.length := by omega
  have hgd : lines.getD i [] = lines[i] := List.getD_eq_getElem lines [] hlen
  rw [hgd] at hpos
  have hmem : '\x7b' ∈ lines[i] := by
    have hcount : 0 < (lines[i]).count '\x7b' := by
      unfold braceDelta at hpos
      omega
    exact List.count_pos_iff.mp hcount
  have hcontains : (lines.getD i []).contains '\x7b' = true := by
    rw [hgd]
    simpa using hmem
  rw [find_snd_eq hfind, hcontains]
  unfold specEnd
  rw [List.drop_eq_getElem_cons hlen]
  simp only [findEndFrom, specEndScan, Bool.true_and, Bool.false_and, Bool.false_or]
  have hne : (0 + braceDelta lines[i] == 0) = false := by
    simp
    omega
  rw [hne]
  rw [if_neg (by simp)]
  rw [if_neg (by simp)]
  have hdec : decide (0 < 0 + braceDelta lines[i]) = true := by
    simp
    omega
  rw [hdec]
  exact findEndFrom_eq_specScan_true _ _ _

/-- C3 witness: in `docNested` the inner pair of lines 1 and 2 does not
close the boundary; the end is line 3 where the outermost balance
reaches zero. -/
theorem C3_outermost_balance_end_witness :
    (find_function_boundaries docNested fooN).2 = specEnd docNested 0 ∧
    specEnd docNested 0 = some 3 :=
  ⟨C3_outermost_balance_end docNested fooN 0 (by decide) (by decide), by decide⟩

/-- C4: when the first line matching the declaration pattern contains no
opening brace, no end line is ever produced (even if a brace opens on a
later line), so no boundary is returned for the name. -/
theorem C4_no_brace_on_decl_line (lines : Doc) (name : FName) (i : Nat)
    (hfind : findDeclIdx name 0 lines = some i)
    (hnb : (lines.getD i []).contains '\x7b' = false) :
    (find_function_boundaries lines name).2 = none ∧ locate lines name = none := by
  have h2 : (find_function_boundaries lines name).2 = none := by
    rw [find_snd_eq hfind, hnb]
    exact findEndFrom_false_eq_none
  exact ⟨h2, locate_eq_none_of_snd_none h2⟩

/-- C4 witness: `docNoBrace` has its opening brace only on the line
after the declaration, and no boundary is returned. -/
theorem C4_no_brace_on_decl_line_witness :
    ((find_function_boundaries docNoBrace fooN).2 = none ∧ locate docNoBrace fooN = none) ∧
    (docNoBrace.getD 1 []).contains '\x7b' = true :=
  ⟨C4_no_brace_on_decl_line docNoBrace fooN 0 (by decide) (by decide), by decide⟩

/-- C5: when the brace balance never returns to zero before the end of
the document, no end line is produced and the name is treated exactly as
not found: it is reported not found and nothing is deleted, instead of
truncating the boundary at end of file. -/
theorem C5_unbalanced_is_not_found (lines : Doc) (name : FName) (i : Nat)
    (hfind : findDeclIdx name 0 lines = some i)
    (hnz : ∀ t, t < (lines.drop i).length → cumBal (lines.drop i) t ≠ 0) :
    (find_function_boundaries lines name).2 = none ∧
    (runBatch lines [name]).newLines = lines ∧
    (runBatch lines [name]).notFound = [name] := by
  have h2 : (find_function_boundaries lines name).2 = none := by
    rw [find_snd_eq hfind]
    cases hc : (lines.getD i []).contains '\x7b' with
    | false => exact findEndFrom_false_eq_none
    | true =>
      rw [findEndFrom_none_iff]
      intro t ht
      simpa using hnz t ht
  have hrun := runBatch_singleton_none (locate_eq_none_of_snd_none h2)
  exact ⟨h2, by rw [hrun], by rw [hrun]⟩

/-- C5 witness: `docRunaway` opens a brace that never closes, and the
single-name batch reports it not found and leaves the document
unchanged. -/
theorem C5_unbalanced_is_not_found_witness :
    (find_function_boundaries docRunaway fooN).2 = none ∧
    (runBatch docRunaway [fooN]).newLines = docRunaway ∧
    (runBatch docRunaway [fooN]).notFound = [fooN] :=
  C5_unbalanced_is_not_found docRunaway fooN 0 (by decide) (by decide)

/-- C6: a name with no boundary is reported not found and skipped, the
batch behaving as if the name were absent from the request list, and a
batch consisting of only that name leaves the document unchanged. -/
theorem C6_not_found_is_skipped (lines : Doc) (name : FName) (names : List FName)
    (hnone : locate lines name = none) (hmem : name ∈ names) :
    name ∈ (runBatch lines names).notFound ∧
    (runBatch lines names).newLines = (runBatch lines (names.erase name)).newLines ∧
    (runBatch lines [name]).newLines = lines := by
  refine ⟨?_, ?_, ?_⟩
  · exact mem_notFound_of_locate_none hnone hmem
  · show removeRanges lines (sortRanges (collectRanges lines names).1)
        = removeRanges lines (sortRanges (collectRanges lines (names.erase name)).1)
    rw [collectRanges_fst_erase hnone names]
  · rw [runBatch_singleton_none hnone]

/-- C6 witness: requesting the absent name together with a present one
reports the absent name not found and removes the present one exactly as
if the absent name had not been requested. -/
theorem C6_not_found_is_skipped_witness :
    "bar".toList ∈ (runBatch docSmall ["bar".toList, fooN]).notFound ∧
    (runBatch docSmall ["bar".toList, fooN]).newLines
      = (runBatch docSmall (["bar".toList, fooN].erase "bar".toList)).newLines ∧
    (runBatch docSmall ["bar".toList]).newLines = docSmall :=
  C6_not_found_is_skipped docSmall ("bar".toList) ["bar".toList, fooN] (by decide) (by decide)

/-- C7 counterexample: on a missing input file the duplicate-function
remover reports the condition and writes nothing, but its `main` simply
returns, so the process terminates with exit status 0, not a non-zero
status. -/
theorem C7_missing_file_exit_zero_counterexample :
    removeDupMain none ["saveUserProfile".toList] = ⟨0, none, true⟩ ∧
    (removeDupMain none ["saveUserProfile".toList]).exitCode ≠ 1 :=
  ⟨rfl, by decide⟩

/-- C7 (amended): a missing input file is reported immediately and no
scanning or edit is performed by either program; `migrate_logger.py`
terminates with exit status 1, while `remove-duplicate-functions.py`
terminates by returning normally, with exit status 0. -/
theorem C7_missing_file_aborts {α : Type} (names : List FName) (migrate : α → α) :
    removeDupMain none names = ⟨0, none, true⟩ ∧
    migrate_logger_main migrate none = ⟨1, none, true⟩ :=
  ⟨rfl, rfl⟩

/-- C8: the final document is identical for every permutation of the
requested name list, because all boundaries are computed against the
unmodified document and are re-sorted before application. -/
theorem C8_order_independence (lines : Doc) {names1 names2 : List FName}
    (h : names1.Perm names2) :
    (runBatch lines names1).newLines = (runBatch lines names2).newLines := by
  show removeRanges lines (sortRanges (collectRanges lines names1).1)
      = removeRanges lines (sortRanges (collectRanges lines names2).1)
  rw [collectRanges_fst, collectRanges_fst]
  rw [sortRanges_eq_of_perm (perm_filterMap (locate lines) h)]

/-- C8 witness: removing two names in either order from `docTwoFns`
produces the same document. -/
theorem C8_order_independence_witness :
    (runBatch docTwoFns [fooN, "bar".toList]).newLines
      = (runBatch docTwoFns ["bar".toList, fooN]).newLines :=
  C8_order_independence docTwoFns (List.Perm.swap ("bar".toList) fooN [])

/-- C9 counterexample: `docTwice` declares the same name twice; the
second run on the first run's output finds the surviving second
declaration, reports nothing as not found, and removes further lines, so
the re-run is not idempotent. -/
theorem C9_second_occurrence_counterexample :
    (runBatch (runBatch docTwice [fooN]).newLines [fooN]).notFound = [] ∧
    (runBatch (runBatch docTwice [fooN]).newLines [fooN]).newLines
      ≠ (runBatch docTwice [fooN]).newLines :=
  ⟨by decide, by decide⟩

/-- C9 (amended): when no line of the first run's output still matches
any requested name's declaration pattern, the second run reports every
name as not found and leaves the document byte-identical; in general a
second run may instead locate and remove a later occurrence of a
requested name. -/
theorem C9_rerun_idempotent (lines : Doc) (names : List FName)
    (h : ∀ n ∈ names, findDeclIdx n 0 ((runBatch lines names).newLines) = none) :
    runBatch ((runBatch lines names).newLines) names
      = ⟨(runBatch lines names).newLines, [], names⟩ :=
  runBatch_no_match h

/-- C9 witness: `docOnce` declares the name once; after the first run
removes it, the second run finds nothing and changes nothing. -/
theorem C9_rerun_idempotent_witness :
    runBatch ((runBatch docOnce [fooN]).newLines) [fooN]
      = ⟨(runBatch docOnce [fooN]).newLines, [], [fooN]⟩ :=
  C9_rerun_idempotent docOnce [fooN] (by decide)

/-- C10: a line matches the declaration pattern exactly when it begins
with the keyword sequence, the name, optional whitespace and an opening
parenthesis; and the locator designates the first matching line, every
earlier line being a non-match (so later occurrences are ignored). -/
theorem C10_anchored_first_match (name : FName) :
    (∀ line, matchesDecl name line = true ↔
      ∃ ws rest, line = declKeyword ++ name ++ ws ++ '(' :: rest ∧
        ws.all isSpaceChar = true) ∧
    (∀ lines i, findDeclIdx name 0 lines = some i →
      i < lines.length ∧ matchesDecl name (lines.getD i []) = true ∧
      ∀ j, j < i → matchesDecl name (lines.getD j []) = false) := by
  refine ⟨fun line => matchesDecl_iff, fun lines i hfind => ?_⟩
  obtain ⟨t, ht1, ht2, ht3, ht4⟩ := findDeclIdx_some hfind
  have hit : i = t := by omega
  subst hit
  exact ⟨ht2, ht3, ht4⟩

/-- C10 witness: the exact declaration line matches; lines missing
`export` or `async` or indented do not; and in `docVariants` the first
matching line, index 3, is located while all earlier lines are
non-matches. -/
theorem C10_anchored_first_match_witness :
    matchesDecl fooN declLineFoo = true ∧
    matchesDecl fooN (docVariants.getD 0 []) = false ∧
    matchesDecl fooN (docVariants.getD 1 []) = false ∧
    matchesDecl fooN (docVariants.getD 2 []) = false ∧
    findDeclIdx fooN 0 docVariants = some 3 :=
  ⟨((C10_anchored_first_match fooN).1 declLineFoo).mpr ⟨[], [], by decide, by decide⟩,
    ((C10_anchored_first_match fooN).2 docVariants 3 (by decide)).2.2 0 (by decide),
    ((C10_anchored_first_match fooN).2 docVariants 3 (by decide)).2.2 1 (by decide),
    ((C10_anchored_first_match fooN).2 docVariants 3 (by decide)).2.2 2 (by decide),
    by decide⟩

end SilentFeed
